import Mathlib

/-!
Verification of the kinematic motion-validation core of
ompl (SpaceInformationKinematic.cpp): the difference-step primitive,
the bisection and incremental motion validators, the path checker,
the motion-states extraction and the start/goal repair routines.

States are modelled as dense vectors of rationals (exact arithmetic in
place of IEEE doubles), a space as a list of per-axis components.  The
constant pi of the C code is threaded as an explicit rational parameter
piQ: every statement proved here holds for an arbitrary value of that
parameter, in particular for any rational approximation of pi.
-/

namespace OmplKin

/-- Per-axis kind, mirroring base::StateComponent type tags used by the
code: LINEAR, WRAPPING_ANGLE and QUATERNION. -/
inductive CompType where
  | LINEAR
  | WRAPPING_ANGLE
  | QUATERNION
deriving DecidableEq

/-- Mirror of base::StateComponent: kind, bounds and resolution of one
axis of the configuration space. -/
structure StateComponent where
  type : CompType
  minValue : ℚ
  maxValue : ℚ
  resolution : ℚ
deriving DecidableEq

/-- A space descriptor is the ordered list of its axis components
(m_stateComponent); the state dimension is its length. -/
abbrev Space := List StateComponent

/-- A state is a dense vector of scalars (base::State::values). -/
abbrev State := List ℚ

/-- Modelled from the spec: the shortest signed angular difference
(angles::shortest_angular_distance of the external angles package, which
is not part of this repository).  Returns the unique representative of
b - a modulo 2*piQ lying in the half-open interval (-piQ, piQ] whenever
piQ is positive. -/
def shortestAngularDistance (piQ a b : ℚ) : ℚ :=
  (b - a) - 2 * piQ * ⌈(b - a - piQ) / (2 * piQ)⌉

/-- Truncation toward zero, the semantics of the C cast from double to
int applied in findDifferenceStep. -/
def trunc (q : ℚ) : ℤ :=
  if 0 ≤ q then ⌊q⌋ else ⌈q⌉

/-- Per-axis difference vector of findDifferenceStep: the shortest
angular difference on WRAPPING_ANGLE axes and plain subtraction
otherwise (LINEAR as well as QUATERNION slots). -/
def diffVec (piQ : ℚ) (space : Space) (s1 s2 : State) : List ℚ :=
  (space.zip (s1.zip s2)).map fun p =>
    if p.1.type = CompType.WRAPPING_ANGLE then
      shortestAngularDistance piQ p.2.1 p.2.2
    else
      p.2.2 - p.2.1

/-- Subdivision count of findDifferenceStep: nd starts at 1 and is
raised to 1 + (int)(fabs(diff i) / (factor * resolution i)) for every
axis, i.e. a left fold of max over the per-axis counts. -/
def findND (factor : ℚ) (space : Space) (diff : List ℚ) : ℤ :=
  ((space.zip diff).map fun p =>
    1 + trunc (|p.2| / (factor * p.1.resolution))).foldl max 1

/-- Mirror of findDifferenceStep: the subdivision count nd together with
the per-axis step vector diff / nd. -/
def findDifferenceStep (piQ : ℚ) (space : Space) (s1 s2 : State) (factor : ℚ) :
    ℤ × List ℚ :=
  let diff := diffVec piQ space s1 s2
  let nd := findND factor space diff
  (nd, diff.map fun d => d / (nd : ℚ))

/-- Grid state at (possibly fractional) index t along an edge: the state
with values s1[k] + t * step[k], exactly the interpolation expression of
the validators and of getMotionStates. -/
def interpState (s1 : State) (step : List ℚ) (t : ℚ) : State :=
  (s1.zip step).map fun p => p.1 + t * p.2

/-- Loop body of checkMotionSubdivision: a FIFO of inclusive index
ranges, processed front first; the midpoint of the dequeued range is
tested and the two remaining halves are enqueued at the back.  The
recursion is driven by an explicit fuel argument; running out of fuel
yields false, and checkMotionSubdivision always supplies enough fuel
for the loop to run to completion (bisectLoop_fuel_agree below shows
the value of the fuel is then irrelevant). -/
def bisectLoop (valid : State → Bool) (s1 : State) (step : List ℚ) :
    ℕ → List (ℕ × ℕ) → Bool
  | _, [] => true
  | 0, _ :: _ => false
  | fuel + 1, (lo, hi) :: rest =>
    let mid := (lo + hi) / 2
    if valid (interpState s1 step (mid : ℚ)) then
      bisectLoop valid s1 step fuel
        (rest ++ (if lo < mid then [(lo, mid - 1)] else []) ++
          (if mid < hi then [(mid + 1, hi)] else []))
    else
      false

/-- Size measure of the bisection FIFO: each inclusive range (lo, hi)
contributes twice its element count plus one.  The measure strictly
decreases at every loop iteration, so any fuel above the measure of the
initial queue lets bisectLoop run to completion. -/
def queueMeasure (q : List (ℕ × ℕ)) : ℕ :=
  (q.map fun p => 2 * (p.2 + 1 - p.1) + 1).sum

/-- Mirror of checkMotionSubdivision: reject an invalid endpoint s2,
then test all strictly interior grid states in midpoint-first FIFO
order. -/
def checkMotionSubdivision (piQ : ℚ) (space : Space) (valid : State → Bool)
    (s1 s2 : State) : Bool :=
  if valid s2 then
    let fd := findDifferenceStep piQ space s1 s2 1
    let nd := fd.1
    bisectLoop valid s1 fd.2 (2 * nd.toNat + 2)
      (if 2 ≤ nd then [(1, (nd - 1).toNat)] else [])
  else
    false

/-- Loop body of checkMotionIncremental, instrumented with the list of
interior grid states it submits to the validity test.  The result
carries the returned boolean, the value written to lastValidState, the
value written to lastValidTime (none when the code leaves the output
untouched) and the instrumentation trace.  Fuel equal to nd makes the
fueled recursion coincide with the C loop for j from 1 while j < nd. -/
def incrLoop (valid : State → Bool) (s1 : State) (step : List ℚ) (nd : ℕ) :
    ℕ → ℕ → Bool × Option State × Option ℚ × List State
  | _, 0 => (true, none, none, [])
  | j, fuel + 1 =>
    if j < nd then
      let test := interpState s1 step (j : ℚ)
      if valid test then
        let r := incrLoop valid s1 step nd (j + 1) fuel
        (r.1, r.2.1, r.2.2.1, test :: r.2.2.2)
      else
        (false, some (interpState s1 step ((j : ℚ) - 1)),
          some (((j : ℚ) - 1) / (nd : ℚ)), [test])
    else
      (true, none, none, [])

/-- Mirror of checkMotionIncremental: reject an invalid endpoint s2
without touching the outputs, otherwise scan the interior grid states
left to right, reporting the state before the first invalid one and its
time fraction.  The last component is the instrumentation trace of
interior states tested. -/
def checkMotionIncremental (piQ : ℚ) (space : Space) (valid : State → Bool)
    (s1 s2 : State) : Bool × Option State × Option ℚ × List State :=
  if valid s2 then
    let fd := findDifferenceStep piQ space s1 s2 1
    incrLoop valid s1 fd.2 fd.1.toNat 1 fd.1.toNat
  else
    (false, none, none, [])

/-- Edge loop of checkPath: every consecutive pair of path states must
pass the subdivision validator. -/
def checkEdges (piQ : ℚ) (space : Space) (valid : State → Bool) :
    List State → Bool
  | s1 :: s2 :: rest =>
    checkMotionSubdivision piQ space valid s1 s2 &&
      checkEdges piQ space valid (s2 :: rest)
  | _ => true

/-- Mirror of checkPath on an optional path (none models a null
pointer): result starts as the non-null test and is only revised inside
the branch guarded by a positive state count. -/
def checkPath (piQ : ℚ) (space : Space) (valid : State → Bool) :
    Option (List State) → Bool
  | none => false
  | some states =>
    if 0 < states.length then
      valid (states.getD 0 []) && checkEdges piQ space valid states
    else
      true

/-- Interior loop of getMotionStates: while j < nd and a slot remains,
occupy slot j with the grid state at index j.  Fuel nd is enough for
the loop to run to completion, and exhaustion returns the exit value of
the loop. -/
def gmsLoop (s1 : State) (step : List ℚ) (nd len : ℕ) :
    ℕ → ℕ → ℕ → List State → ℕ × List State
  | 0, _, added, arr => (added, arr)
  | fuel + 1, j, added, arr =>
    if j < nd ∧ added < len then
      gmsLoop s1 step nd len fuel (j + 1) (added + 1)
        (arr.set j (interpState s1 step (j : ℚ)))
    else
      (added, arr)

/-- Mirror of getMotionStates: with alloc the output sequence is resized
to nd + 1 fresh slots (the empty list models a not-yet-filled slot;
every slot is assigned before the function returns in that case),
without alloc the caller's buffer is reused.  Slot 0 receives a copy of
s1 when a slot exists, interior grid states occupy subsequent slots
while room remains, and a copy of s2 is placed after them if a slot is
still free.  Returns the number of slots written together with the
final sequence. -/
def getMotionStates (piQ : ℚ) (space : Space) (s1 s2 : State)
    (buf : List State) (alloc : Bool) : ℕ × List State :=
  let fd := findDifferenceStep piQ space s1 s2 1
  let nd := fd.1.toNat
  let arr0 := if alloc then List.replicate (nd + 1) ([] : State) else buf
  let len := arr0.length
  let added0 := if 0 < len then 1 else 0
  let arr1 := if 0 < len then arr0.set 0 s1 else arr0
  let r := gmsLoop s1 fd.2 nd len nd 1 added0 arr1
  if r.1 < len then (r.1 + 1, r.2.set r.1 s2) else r

/-- Modelled from the spec: satisfiesBounds (declared in the base
SpaceInformation class, outside this repository snapshot) holds when
every axis value lies within the inclusive per-axis bounds. -/
def satisfiesBounds (space : Space) (s : State) : Bool :=
  (space.zip s).all fun p =>
    decide (p.1.minValue ≤ p.2) && decide (p.2 ≤ p.1.maxValue)

/-- Clipping loop of searchValidNearby: values above the maximum are
replaced by the maximum, values below the minimum by the minimum. -/
def projectToBounds (space : Space) (s : State) : State :=
  (space.zip s).map fun p =>
    if p.1.maxValue < p.2 then p.1.maxValue
    else if p.2 < p.1.minValue then p.1.minValue
    else p.2

/-- Random draws consumed by one sampleNear call: u gives the uniform
draw for a given axis and interval, quat the four scalars written for a
quaternion head.  The draws are injected capabilities of the sampler
(its RNG); their distribution is irrelevant to the theorems below. -/
structure DrawFamily where
  u : ℕ → ℚ → ℚ → ℚ
  quat : ℕ → List ℚ

/-- Axis loop of SamplingCore::sampleNear (vector-radius overload),
starting at axis i: a quaternion head consumes four slots and is
replaced by a fresh draw, any other axis is drawn uniformly from the
intersection of its bounds with the rho-neighborhood of the reference
value. -/
def sampleNearFrom (space : Space) (d : DrawFamily) (near : State)
    (rho : List ℚ) (i : ℕ) : List ℚ :=
  if h : i < space.length then
    let c := space.get ⟨i, h⟩
    if c.type = CompType.QUATERNION then
      d.quat i ++ sampleNearFrom space d near rho (i + 4)
    else
      d.u i (max c.minValue (near.getD i 0 - rho.getD i 0))
        (min c.maxValue (near.getD i 0 + rho.getD i 0)) ::
        sampleNearFrom space d near rho (i + 1)
  else
    []
termination_by space.length - i

/-- One full sampleNear call writing every axis. -/
def sampleNear (space : Space) (d : DrawFamily) (near : State)
    (rho : List ℚ) : State :=
  sampleNearFrom space d near rho 0

/-- Attempt loop of searchValidNearby: the scratch state temp stays
fixed while the working state is overwritten by each sampleNear call;
the loop stops at the first valid sample or when the attempts are
exhausted, in which case the working state keeps the last sample. -/
def svnLoop (space : Space) (valid : State → Bool) (rngs : ℕ → DrawFamily)
    (temp : State) (rho : List ℚ) : State → ℕ → ℕ → Bool × State
  | cur, _, 0 => (false, cur)
  | _, i, attempts + 1 =>
    let s := sampleNear space (rngs i) temp rho
    if valid s then (true, s)
    else svnLoop space valid rngs temp rho s (i + 1) attempts

/-- Mirror of searchValidNearby: copy the reference into the working
state, clip it into bounds if needed, accept it if valid, and otherwise
sample around the clipped copy for the given number of attempts.  The
returned pair is the success flag and the final content of the working
state (the caller-provided output buffer). -/
def searchValidNearby (space : Space) (valid : State → Bool)
    (rngs : ℕ → DrawFamily) (near : State) (rho : List ℚ)
    (attempts : ℕ) : Bool × State :=
  let state0 := if satisfiesBounds space near then near
                else projectToBounds space near
  if valid state0 then (true, state0)
  else svnLoop space valid rngs state0 rho state0 0 attempts

/-- Per-state body of fixInvalidInputStates: a state that is out of
bounds or invalid is replaced by the result of searchValidNearby when
that search succeeds, and is left untouched otherwise. -/
def fixOneState (space : Space) (valid : State → Bool)
    (rngs : ℕ → DrawFamily) (rho : List ℚ) (attempts : ℕ)
    (st : State) : State :=
  let b := satisfiesBounds space st
  let v := if b then valid st else false
  if !b || !v then
    let r := searchValidNearby space valid rngs st rho attempts
    if r.1 then r.2 else st
  else
    st

/-- Start-state loop of fixInvalidInputStates; the index selects the
draw family consumed by that state's repair. -/
def fixStartStates (space : Space) (valid : State → Bool)
    (rngs : ℕ → ℕ → DrawFamily) (rho : List ℚ) (attempts : ℕ) :
    ℕ → List State → List State
  | _, [] => []
  | i, st :: rest =>
    fixOneState space valid (rngs i) rho attempts st ::
      fixStartStates space valid rngs rho attempts (i + 1) rest

/-- Mirror of fixInvalidInputStates: repair every start state with the
start radii and the goal state (when one is present) with the goal
radii. -/
def fixInvalidInputStates (space : Space) (valid : State → Bool)
    (rngs : ℕ → ℕ → DrawFamily) (rngGoal : ℕ → DrawFamily)
    (rhoStart rhoGoal : List ℚ) (attempts : ℕ)
    (startStates : List State) (goal : Option State) :
    List State × Option State :=
  (fixStartStates space valid rngs rhoStart attempts 0 startStates,
   goal.map (fixOneState space valid rngGoal rhoGoal attempts))

/-- Written from the specification wording, for comparison with the
code-level findND: nd = max(1, max over the axes of
1 + floor(|diff i| / (rho * resolution i))), the inner maximum read as
a right fold of max with default 1 on an empty axis list. -/
def ndSpec (rho : ℚ) (space : Space) (diff : List ℚ) : ℤ :=
  max 1 (((space.zip diff).map fun p =>
    1 + ⌊|p.2| / (rho * p.1.resolution)⌋).foldr max 1)

/- Concrete instances used to exercise the theorems below. -/

/-- Demo space of the spec scenarios: two LINEAR axes with bounds
0 to 10 and resolution 1. -/
def demoSpace2 : Space :=
  [⟨CompType.LINEAR, 0, 10, 1⟩, ⟨CompType.LINEAR, 0, 10, 1⟩]

/-- One LINEAR axis with bounds 0 to 10 and resolution 1. -/
def demoSpace1 : Space := [⟨CompType.LINEAR, 0, 10, 1⟩]

/-- One WRAPPING_ANGLE axis together with one LINEAR axis. -/
def demoSpaceW : Space :=
  [⟨CompType.WRAPPING_ANGLE, -157/50, 157/50, 1/10⟩,
   ⟨CompType.LINEAR, 0, 10, 1⟩]

/-- Validity predicate accepting every state. -/
def demoAllValid : State → Bool := fun _ => true

/-- Validity predicate rejecting every state. -/
def demoNoneValid : State → Bool := fun _ => false

/-- Validity predicate for the incremental-witness scenario: a state is
valid when its first coordinate is below 2 or above 3 (an obstacle
occupies the band between 2 and 3 on the first axis). -/
def demoBandValid : State → Bool := fun s =>
  decide (s.getD 0 0 < 2) || decide ((3 : ℚ) < s.getD 0 0)

/-- Deterministic draw family: every uniform draw returns the lower end
of its interval and every quaternion draw returns zeros. -/
def demoDraws : ℕ → DrawFamily := fun _ =>
  ⟨fun _ lo _ => lo, fun _ => [0, 0, 0, 0]⟩

/- Elementary facts about the fold computing nd. -/

theorem foldl_max_init_le (l : List ℤ) : ∀ a : ℤ, a ≤ l.foldl max a := by
  induction l with
  | nil => intro a; exact le_refl a
  | cons x xs ih =>
    intro a
    exact le_trans (le_max_left a x) (ih (max a x))

theorem foldl_max_mem_le (l : List ℤ) :
    ∀ a x : ℤ, x ∈ l → x ≤ l.foldl max a := by
  induction l with
  | nil => intro a x hx; cases hx
  | cons y ys ih =>
    intro a x hx
    rcases List.mem_cons.mp hx with h | h
    · subst h
      exact le_trans (le_max_right a x) (foldl_max_init_le ys (max a x))
    · exact ih (max a y) x h

theorem foldl_max_eq_max_foldr (l : List ℤ) :
    ∀ a : ℤ, 1 ≤ a → l.foldl max a = max a (l.foldr max 1) := by
  induction l with
  | nil => intro a ha; simp [max_eq_left ha]
  | cons x xs ih =>
    intro a ha
    have h1 : (1 : ℤ) ≤ max a x := le_trans ha (le_max_left a x)
    simp only [List.foldl_cons, List.foldr_cons]
    rw [ih (max a x) h1, max_assoc]

theorem one_le_findND (factor : ℚ) (space : Space) (diff : List ℚ) :
    1 ≤ findND factor space diff :=
  foldl_max_init_le _ 1

theorem findND_pos_q (factor : ℚ) (space : Space) (diff : List ℚ) :
    (0 : ℚ) < ((findND factor space diff : ℤ) : ℚ) := by
  have h := one_le_findND factor space diff
  exact_mod_cast lt_of_lt_of_le Int.zero_lt_one h

/- Sanity facts about the spec-modelled shortest angular difference:
it is congruent to the plain difference modulo 2*piQ, and lands in
(-piQ, piQ] whenever piQ is positive. -/

theorem shortestAngularDistance_congruent (piQ a b : ℚ) :
    ∃ m : ℤ, shortestAngularDistance piQ a b - (b - a) = 2 * piQ * m := by
  refine ⟨-⌈(b - a - piQ) / (2 * piQ)⌉, ?_⟩
  unfold shortestAngularDistance
  push_cast
  ring

theorem shortestAngularDistance_range (piQ a b : ℚ) (h : 0 < piQ) :
    -piQ < shortestAngularDistance piQ a b ∧
      shortestAngularDistance piQ a b ≤ piQ := by
  have h2 : (0 : ℚ) < 2 * piQ := by linarith
  set x := b - a with hx
  set k : ℤ := ⌈(x - piQ) / (2 * piQ)⌉ with hk
  have hle : (x - piQ) / (2 * piQ) ≤ (k : ℚ) := Int.le_ceil _
  have hlt : ((k : ℚ) - 1) < (x - piQ) / (2 * piQ) := by
    have := Int.ceil_lt_add_one ((x - piQ) / (2 * piQ))
    push_cast at this ⊢
    linarith
  constructor
  · have : ((k : ℚ) - 1) * (2 * piQ) < x - piQ := by
      calc ((k : ℚ) - 1) * (2 * piQ) < ((x - piQ) / (2 * piQ)) * (2 * piQ) := by
            exact mul_lt_mul_of_pos_right hlt h2
        _ = x - piQ := by field_simp
    unfold shortestAngularDistance
    rw [← hx, ← hk]
    nlinarith
  · have : x - piQ ≤ (k : ℚ) * (2 * piQ) := by
      calc x - piQ = ((x - piQ) / (2 * piQ)) * (2 * piQ) := by
            field_simp
        _ ≤ (k : ℚ) * (2 * piQ) := by
            exact mul_le_mul_of_nonneg_right hle (le_of_lt h2)
    unfold shortestAngularDistance
    rw [← hx, ← hk]
    nlinarith

theorem findDifferenceStep_fst (piQ : ℚ) (space : Space) (s1 s2 : State)
    (f : ℚ) :
    (findDifferenceStep piQ space s1 s2 f).1 =
      findND f space (diffVec piQ space s1 s2) := rfl

theorem findDifferenceStep_snd (piQ : ℚ) (space : Space) (s1 s2 : State)
    (f : ℚ) :
    (findDifferenceStep piQ space s1 s2 f).2 =
      (diffVec piQ space s1 s2).map
        (fun d => d / ((findND f space (diffVec piQ space s1 s2) : ℤ) : ℚ)) :=
  rfl

/-- Soundness of the FIFO bisection loop: a run that returns true has,
for every inclusive range still in the queue, tested every index of
that range successfully. -/
theorem bisectLoop_sound (valid : State → Bool) (s1 : State) (step : List ℚ) :
    ∀ fuel q, bisectLoop valid s1 step fuel q = true →
      ∀ p ∈ q, ∀ k : ℕ, p.1 ≤ k → k ≤ p.2 →
        valid (interpState s1 step (k : ℚ)) = true := by
  intro fuel
  induction fuel with
  | zero =>
    intro q hq p hp
    cases q with
    | nil => cases hp
    | cons a rest => simp [bisectLoop] at hq
  | succ n ih =>
    intro q hq p hp k hk1 hk2
    cases q with
    | nil => cases hp
    | cons a rest =>
      obtain ⟨lo, hi⟩ := a
      simp only [bisectLoop] at hq
      by_cases hv : valid (interpState s1 step (((lo + hi) / 2 : ℕ) : ℚ)) = true
      · rw [if_pos hv] at hq
        have hrec := ih _ hq
        rcases List.mem_cons.mp hp with hph | hpt
        · -- p is the dequeued range (lo, hi)
          subst hph
          rcases lt_trichotomy k ((lo + hi) / 2) with hlt | heq | hgt
          · have hlomid : lo < (lo + hi) / 2 := lt_of_le_of_lt hk1 hlt
            refine hrec (lo, (lo + hi) / 2 - 1) ?_ k hk1 (by omega)
            rw [if_pos hlomid]
            simp [List.mem_append]
          · rw [heq]; exact hv
          · have hmidhi : (lo + hi) / 2 < hi := lt_of_lt_of_le hgt hk2
            refine hrec ((lo + hi) / 2 + 1, hi) ?_ k (by omega) hk2
            rw [if_pos hmidhi]
            simp [List.mem_append]
        · exact hrec p (by simp [List.mem_append, hpt]) k hk1 hk2
      · rw [if_neg hv] at hq
        cases hq

/-- C1.  Bisection validator soundness: for every edge with a valid
left endpoint, a true result of checkMotionSubdivision implies that the
right endpoint is valid and that every strictly interior grid state
s1 + k * step for 1 <= k <= nd - 1 of the factor-1 subdivision is
valid: the midpoint-first FIFO traversal visits every strictly interior
grid index. -/
theorem checkMotionSubdivision_sound (piQ : ℚ) (space : Space)
    (valid : State → Bool) (s1 s2 : State) (_hs1 : valid s1 = true)
    (hrun : checkMotionSubdivision piQ space valid s1 s2 = true) :
    valid s2 = true ∧
      ∀ k : ℕ, 1 ≤ k →
        (k : ℤ) ≤ (findDifferenceStep piQ space s1 s2 1).1 - 1 →
        valid (interpState s1 (findDifferenceStep piQ space s1 s2 1).2 (k : ℚ))
          = true := by
  unfold checkMotionSubdivision at hrun
  cases hval2 : valid s2 with
  | false =>
    rw [hval2] at hrun
    simp at hrun
  | true =>
    rw [hval2] at hrun
    simp only [if_pos] at hrun
    refine ⟨rfl, ?_⟩
    intro k hk1 hk2
    have hnd1 : 1 ≤ (findDifferenceStep piQ space s1 s2 1).1 :=
      one_le_findND 1 space (diffVec piQ space s1 s2)
    by_cases h2 : 2 ≤ (findDifferenceStep piQ space s1 s2 1).1
    · rw [if_pos h2] at hrun
      refine bisectLoop_sound valid s1 _ _ _ hrun
        (1, ((findDifferenceStep piQ space s1 s2 1).1 - 1).toNat)
        (List.mem_singleton.mpr rfl) k hk1 ?_
      simp only
      omega
    · exfalso
      omega

theorem diffVec_length (piQ : ℚ) (space : Space) (s1 s2 : State) :
    (diffVec piQ space s1 s2).length =
      min space.length (min s1.length s2.length) := by
  simp [diffVec]

theorem interpState_zero (s1 : State) (step : List ℚ)
    (h : s1.length ≤ step.length) : interpState s1 step 0 = s1 := by
  unfold interpState
  have hcong : (s1.zip step).map (fun p => p.1 + 0 * p.2) =
      (s1.zip step).map Prod.fst := by
    apply List.map_congr_left
    intro p _
    ring
  rw [hcong, List.map_fst_zip s1 step h]

/-- A false verdict of the incremental loop locates a first invalid
grid index at or after the starting index, with the witness state and
the witness time computed from that index. -/
theorem incrLoop_false_spec (valid : State → Bool) (s1 : State)
    (step : List ℚ) (nd : ℕ) :
    ∀ fuel j (lv : State) (lt : ℚ) (tr : List State),
      incrLoop valid s1 step nd j fuel = (false, some lv, some lt, tr) →
      ∃ m : ℕ, j ≤ m ∧ m < nd ∧
        (∀ k : ℕ, j ≤ k → k < m →
          valid (interpState s1 step (k : ℚ)) = true) ∧
        valid (interpState s1 step (m : ℚ)) = false ∧
        lv = interpState s1 step ((m : ℚ) - 1) ∧
        lt = ((m : ℚ) - 1) / (nd : ℚ) := by
  intro fuel
  induction fuel with
  | zero =>
    intro j lv lt tr h
    simp [incrLoop] at h
  | succ n ih =>
    intro j lv lt tr h
    simp only [incrLoop] at h
    by_cases hj : j < nd
    · rw [if_pos hj] at h
      by_cases hv : valid (interpState s1 step (j : ℚ)) = true
      · rw [if_pos hv] at h
        simp only [Prod.mk.injEq] at h
        obtain ⟨h1, h2, h3, _h4⟩ := h
        obtain ⟨m, hm1, hm2, hm3, hm4, hm5, hm6⟩ := ih (j + 1) lv lt
          (incrLoop valid s1 step nd (j + 1) n).2.2.2
          (by
            rw [← h1, ← h2, ← h3])
        refine ⟨m, by omega, hm2, ?_, hm4, hm5, hm6⟩
        intro k hk1 hk2
        rcases Nat.eq_or_lt_of_le hk1 with hkj | hkj
        · rw [← hkj]; exact hv
        · exact hm3 k hkj hk2
      · rw [if_neg hv] at h
        simp only [Prod.mk.injEq, Option.some.injEq] at h
        obtain ⟨_, h2, h3, _⟩ := h
        exact ⟨j, le_refl j, hj, fun k hk1 hk2 => absurd hk1 (by omega),
          Bool.not_eq_true _ ▸ Bool.of_not_eq_true hv, h2.symm, h3.symm⟩
    · rw [if_neg hj] at h
      simp at h

/-- C2.  Incremental validator witness correctness: when
checkMotionIncremental returns false having written both witness
outputs, there is a first interior grid index j whose state is invalid;
the witness state is s1 + (j - 1) * step, the witness time is
(j - 1) / nd, every grid state of index below j (the start state
included) is valid, and grid state j is invalid. -/
theorem checkMotionIncremental_witness_correct (piQ : ℚ) (space : Space)
    (valid : State → Bool) (s1 s2 : State)
    (hlen1 : s1.length = space.length) (hlen2 : s2.length = space.length)
    (hs1 : valid s1 = true) (lv : State) (lt : ℚ) (tr : List State)
    (hrun : checkMotionIncremental piQ space valid s1 s2 =
      (false, some lv, some lt, tr)) :
    ∃ j : ℕ, 1 ≤ j ∧
      (j : ℤ) < (findDifferenceStep piQ space s1 s2 1).1 ∧
      (∀ k : ℕ, k < j →
        valid (interpState s1 (findDifferenceStep piQ space s1 s2 1).2 (k : ℚ))
          = true) ∧
      valid (interpState s1 (findDifferenceStep piQ space s1 s2 1).2 (j : ℚ))
        = false ∧
      lv = interpState s1 (findDifferenceStep piQ space s1 s2 1).2
        ((j : ℚ) - 1) ∧
      lt = ((j : ℚ) - 1) / (((findDifferenceStep piQ space s1 s2 1).1 : ℤ) : ℚ)
      := by
  unfold checkMotionIncremental at hrun
  cases hval2 : valid s2 with
  | false =>
    rw [hval2] at hrun
    simp at hrun
  | true =>
    rw [hval2] at hrun
    simp only [if_pos] at hrun
    have hnd1 : 1 ≤ (findDifferenceStep piQ space s1 s2 1).1 :=
      one_le_findND 1 space (diffVec piQ space s1 s2)
    obtain ⟨m, hm1, hm2, hm3, hm4, hm5, hm6⟩ :=
      incrLoop_false_spec valid s1 (findDifferenceStep piQ space s1 s2 1).2
        (findDifferenceStep piQ space s1 s2 1).1.toNat _ 1 lv lt tr hrun
    have hstep : s1.length ≤ (findDifferenceStep piQ space s1 s2 1).2.length := by
      rw [findDifferenceStep_snd, List.length_map, diffVec_length]
      omega
    refine ⟨m, hm1, by omega, ?_, hm4, hm5, ?_⟩
    · intro k hk
      cases k with
      | zero =>
        have h0 : ((0 : ℕ) : ℚ) = 0 := by norm_num
        rw [h0, interpState_zero s1 _ hstep]
        exact hs1
      | succ k0 => exact hm3 (k0 + 1) (by omega) hk
    · rw [hm6]
      congr 1
      have := Int.toNat_of_nonneg (by omega :
        0 ≤ (findDifferenceStep piQ space s1 s2 1).1)
      exact_mod_cast congrArg (fun z : ℤ => ((z : ℤ) : ℚ)) this

/-- C3.  Difference-step definition: at any factor rho in (0, 1] and
for positive resolutions, the code computes exactly the specified
difference vector (shortest signed angular difference on wrapping axes,
plain subtraction elsewhere), the subdivision count
nd = max(1, max over the axes of 1 + floor(|diff i| / (rho * res i))),
and the step vector diff / nd. -/
theorem findDifferenceStep_spec (piQ rho : ℚ) (space : Space) (s1 s2 : State)
    (hrho0 : 0 < rho) (_hrho1 : rho ≤ 1)
    (hres : ∀ c ∈ space, 0 < c.resolution) :
    (findDifferenceStep piQ space s1 s2 rho).1 =
      ndSpec rho space (diffVec piQ space s1 s2) ∧
    (findDifferenceStep piQ space s1 s2 rho).2 =
      (diffVec piQ space s1 s2).map
        (fun d => d / ((ndSpec rho space (diffVec piQ space s1 s2) : ℤ) : ℚ)) ∧
    ∀ i : ℕ, (hi : i < space.length) → (hi1 : i < s1.length) →
      (hi2 : i < s2.length) →
      (diffVec piQ space s1 s2).getD i 0 =
        if space[i].type = CompType.WRAPPING_ANGLE then
          shortestAngularDistance piQ s1[i] s2[i]
        else s2[i] - s1[i] := by
  have hnd : findND rho space (diffVec piQ space s1 s2) =
      ndSpec rho space (diffVec piQ space s1 s2) := by
    unfold findND ndSpec
    have hcong : ((space.zip (diffVec piQ space s1 s2)).map fun p =>
        1 + trunc (|p.2| / (rho * p.1.resolution))) =
        ((space.zip (diffVec piQ space s1 s2)).map fun p =>
        1 + ⌊|p.2| / (rho * p.1.resolution)⌋) := by
      apply List.map_congr_left
      intro p hp
      have hpc : p.1 ∈ space := (List.of_mem_zip hp).1
      have hrpos : 0 < rho * p.1.resolution :=
        mul_pos hrho0 (hres p.1 hpc)
      have hq : 0 ≤ |p.2| / (rho * p.1.resolution) :=
        div_nonneg (abs_nonneg _) (le_of_lt hrpos)
      unfold trunc
      rw [if_pos hq]
    rw [hcong]
    exact foldl_max_eq_max_foldr _ 1 (le_refl 1)
  refine ⟨hnd, ?_, ?_⟩
  · rw [findDifferenceStep_snd, hnd]
  · intro i hi hi1 hi2
    have hiz : i < (space.zip (s1.zip s2)).length := by
      simp [List.length_zip]
      omega
    have hid : i < (diffVec piQ space s1 s2).length := by
      rw [diffVec_length]
      omega
    rw [List.getD_eq_getElem _ _ hid]
    unfold diffVec
    rw [List.getElem_map, List.getElem_zip, List.getElem_zip]

/-- C4.  Subdivision resolution bound: at factor 1, the step of any
axis with positive resolution is no larger than that resolution in
absolute value. -/
theorem step_le_resolution (piQ : ℚ) (space : Space) (s1 s2 : State)
    (i : ℕ) (hi : i < space.length) (hi1 : i < s1.length)
    (hi2 : i < s2.length) (hres : 0 < space[i].resolution) :
    |(findDifferenceStep piQ space s1 s2 1).2.getD i 0| ≤
      space[i].resolution := by
  have hid : i < (diffVec piQ space s1 s2).length := by
    rw [diffVec_length]; omega
  set diff := diffVec piQ space s1 s2 with hdiff
  set nd := findND 1 space diff with hndd
  have hnd1 : 1 ≤ nd := one_le_findND 1 space diff
  -- the per-axis count of axis i is below nd
  have hiz : i < (space.zip diff).length := by
    simp [List.length_zip]
    omega
  have hmem : (1 + trunc (|diff[i]| / (1 * space[i].resolution))) ∈
      ((space.zip diff).map fun p =>
        1 + trunc (|p.2| / (1 * p.1.resolution))) := by
    have hlenm : i < (((space.zip diff)).map fun p =>
        1 + trunc (|p.2| / (1 * p.1.resolution))).length := by
      simpa using hiz
    have hmem0 := List.getElem_mem hlenm
    rw [List.getElem_map, List.getElem_zip] at hmem0
    exact hmem0
  have hle : 1 + trunc (|diff[i]| / (1 * space[i].resolution)) ≤ nd :=
    foldl_max_mem_le _ 1 _ hmem
  have hq : 0 ≤ |diff[i]| / (1 * space[i].resolution) :=
    div_nonneg (abs_nonneg _) (by linarith)
  rw [show trunc (|diff[i]| / (1 * space[i].resolution)) =
      ⌊|diff[i]| / (1 * space[i].resolution)⌋ by unfold trunc; rw [if_pos hq]]
    at hle
  simp only [one_mul] at hle
  have hr0 : space[i].resolution ≠ 0 := ne_of_gt hres
  -- floor bound: |diff i| < nd * resolution
  have hfl : |diff[i]| / space[i].resolution <
      (⌊|diff[i]| / space[i].resolution⌋ : ℚ) + 1 :=
    Int.lt_floor_add_one _
  have hnda : ((⌊|diff[i]| / space[i].resolution⌋ : ℤ) : ℚ) + 1 ≤
      ((nd : ℤ) : ℚ) := by
    exact_mod_cast by omega
  have hxr : |diff[i]| / space[i].resolution < ((nd : ℤ) : ℚ) :=
    lt_of_lt_of_le hfl hnda
  have hlt : |diff[i]| < ((nd : ℤ) : ℚ) * space[i].resolution := by
    calc |diff[i]| = (|diff[i]| / space[i].resolution) * space[i].resolution
        := by field_simp
      _ < ((nd : ℤ) : ℚ) * space[i].resolution :=
        mul_lt_mul_of_pos_right hxr hres
  -- conclude for the step component
  have hstep : (findDifferenceStep piQ space s1 s2 1).2.getD i 0 =
      diff[i] / ((nd : ℤ) : ℚ) := by
    rw [findDifferenceStep_snd]
    rw [List.getD_eq_getElem _ _ (by simpa using hid), List.getElem_map]
  rw [hstep, abs_div]
  have hndq : (0 : ℚ) < ((nd : ℤ) : ℚ) := findND_pos_q 1 space diff
  rw [abs_of_pos hndq]
  rw [div_le_iff₀ hndq]
  nlinarith

/-- C9.  Endpoint closure in exact arithmetic: on every linear axis
s1 + nd * step recovers s2 exactly, and on every wrapping axis it
recovers s2 up to an integer multiple of 2 * piQ. -/
theorem endpoint_closure (piQ factor : ℚ) (space : Space) (s1 s2 : State)
    (i : ℕ) (hi : i < space.length) (hi1 : i < s1.length)
    (hi2 : i < s2.length) :
    (space[i].type = CompType.LINEAR →
      s1[i] + (((findDifferenceStep piQ space s1 s2 factor).1 : ℤ) : ℚ) *
        (findDifferenceStep piQ space s1 s2 factor).2.getD i 0 = s2[i]) ∧
    (space[i].type = CompType.WRAPPING_ANGLE →
      ∃ m : ℤ, s1[i] + (((findDifferenceStep piQ space s1 s2 factor).1 : ℤ) : ℚ) *
        (findDifferenceStep piQ space s1 s2 factor).2.getD i 0 - s2[i] =
          2 * piQ * m) := by
  have hid : i < (diffVec piQ space s1 s2).length := by
    rw [diffVec_length]; omega
  have hndq : (0 : ℚ) <
      ((findND factor space (diffVec piQ space s1 s2) : ℤ) : ℚ) :=
    findND_pos_q factor space (diffVec piQ space s1 s2)
  have hstep : (findDifferenceStep piQ space s1 s2 factor).2.getD i 0 =
      (diffVec piQ space s1 s2).getD i 0 /
        ((findND factor space (diffVec piQ space s1 s2) : ℤ) : ℚ) := by
    rw [findDifferenceStep_snd]
    rw [List.getD_eq_getElem _ _ (by simpa using hid), List.getElem_map,
      List.getD_eq_getElem _ _ hid]
  have hmul : (((findDifferenceStep piQ space s1 s2 factor).1 : ℤ) : ℚ) *
      (findDifferenceStep piQ space s1 s2 factor).2.getD i 0 =
      (diffVec piQ space s1 s2).getD i 0 := by
    rw [hstep, findDifferenceStep_fst]
    field_simp
  have hdval : (diffVec piQ space s1 s2).getD i 0 =
      if space[i].type = CompType.WRAPPING_ANGLE then
        shortestAngularDistance piQ s1[i] s2[i]
      else s2[i] - s1[i] := by
    rw [List.getD_eq_getElem _ _ hid]
    unfold diffVec
    rw [List.getElem_map, List.getElem_zip, List.getElem_zip]
  constructor
  · intro hlin
    rw [hmul, hdval, if_neg (by rw [hlin]; intro hcon; cases hcon)]
    ring
  · intro hwrap
    obtain ⟨m, hm⟩ := shortestAngularDistance_congruent piQ s1[i] s2[i]
    refine ⟨m, ?_⟩
    rw [hmul, hdval, if_pos hwrap]
    linarith [hm]

theorem checkEdges_iff_chain (piQ : ℚ) (space : Space) (valid : State → Bool) :
    ∀ states : List State,
      checkEdges piQ space valid states = true ↔
        List.Chain'
          (fun a b => checkMotionSubdivision piQ space valid a b = true)
          states := by
  intro states
  induction states with
  | nil => simp [checkEdges]
  | cons a l ih =>
    cases l with
    | nil => simp [checkEdges]
    | cons b m =>
      rw [List.chain'_cons, ← ih]
      simp [checkEdges, Bool.and_eq_true]

/-- C5 (amended).  Path validation: a null path is rejected, a non-null
empty path is accepted, and a non-empty path is accepted exactly when
its first state is valid and every consecutive edge passes the
bisection validator in order. -/
theorem checkPath_spec (piQ : ℚ) (space : Space) (valid : State → Bool) :
    checkPath piQ space valid none = false ∧
    checkPath piQ space valid (some []) = true ∧
    ∀ states : List State, states ≠ [] →
      (checkPath piQ space valid (some states) = true ↔
        (valid (states.getD 0 []) = true ∧
          List.Chain'
            (fun a b => checkMotionSubdivision piQ space valid a b = true)
            states)) := by
  refine ⟨rfl, rfl, ?_⟩
  intro states hne
  have hlen : 0 < states.length := List.length_pos.mpr hne
  simp only [checkPath]
  rw [if_pos hlen, Bool.and_eq_true, checkEdges_iff_chain]

/-- C5 (counterexample).  The code accepts a non-null empty path: the
claim that check_path returns false on an empty path is refuted on the
two-axis demo space with the all-accepting validity predicate. -/
theorem checkPath_empty_counterexample :
    checkPath (157/50) demoSpace2 demoAllValid (some []) = true ∧
    checkPath (157/50) demoSpace2 demoAllValid (some ([] : List State)) ≠
      false := by
  exact ⟨rfl, by simp [checkPath]⟩

/-- C8.  Incremental validator atomicity on an invalid endpoint: when
s2 is invalid, checkMotionIncremental returns false, leaves both
witness outputs unwritten, and its instrumentation trace is empty: no
interior grid state is tested. -/
theorem checkMotionIncremental_invalid_endpoint (piQ : ℚ) (space : Space)
    (valid : State → Bool) (s1 s2 : State) (h : valid s2 = false) :
    checkMotionIncremental piQ space valid s1 s2 = (false, none, none, []) := by
  unfold checkMotionIncremental
  rw [h]
  simp

theorem fixOneState_search_failed (space : Space) (valid : State → Bool)
    (rngs : ℕ → DrawFamily) (rho : List ℚ) (attempts : ℕ) (st : State)
    (hfail : (searchValidNearby space valid rngs st rho attempts).1 = false) :
    fixOneState space valid rngs rho attempts st = st := by
  simp only [fixOneState, hfail]
  split <;> simp

theorem fixStartStates_getD (space : Space) (valid : State → Bool)
    (rngs : ℕ → ℕ → DrawFamily) (rho : List ℚ) (attempts : ℕ) :
    ∀ (sts : List State) (base i : ℕ), i < sts.length →
      (fixStartStates space valid rngs rho attempts base sts).getD i [] =
        fixOneState space valid (rngs (base + i)) rho attempts
          (sts.getD i []) := by
  intro sts
  induction sts with
  | nil => intro base i h; cases h
  | cons st rest ih =>
    intro base i h
    cases i with
    | zero => simp [fixStartStates]
    | succ n =>
      have hrw : base + (n + 1) = (base + 1) + n := by omega
      simp only [fixStartStates, List.getD_cons_succ]
      rw [hrw]
      exact ih (base + 1) n (by simpa using h)

/-- C7 (amended).  Repair-failure frame condition: when
searchValidNearby fails for a start state (or for the goal state), the
caller's state is left completely unchanged by fixInvalidInputStates;
the projection into bounds is applied only to the internal scratch
state of searchValidNearby, which is discarded on failure. -/
theorem fixInvalidInputStates_frame (space : Space) (valid : State → Bool)
    (rngs : ℕ → ℕ → DrawFamily) (rngGoal : ℕ → DrawFamily)
    (rhoStart rhoGoal : List ℚ) (attempts : ℕ)
    (startStates : List State) (goal : Option State) :
    (∀ i : ℕ, i < startStates.length →
      (searchValidNearby space valid (rngs i) (startStates.getD i [])
        rhoStart attempts).1 = false →
      ((fixInvalidInputStates space valid rngs rngGoal rhoStart rhoGoal
        attempts startStates goal).1).getD i [] = startStates.getD i []) ∧
    (∀ g : State, goal = some g →
      (searchValidNearby space valid rngGoal g rhoGoal attempts).1 = false →
      (fixInvalidInputStates space valid rngs rngGoal rhoStart rhoGoal
        attempts startStates goal).2 = some g) := by
  constructor
  · intro i hi hfail
    unfold fixInvalidInputStates
    rw [fixStartStates_getD space valid rngs rhoStart attempts
      startStates 0 i hi]
    simp only [Nat.zero_add]
    exact fixOneState_search_failed _ _ _ _ _ _ hfail
  · intro g hg hfail
    unfold fixInvalidInputStates
    rw [hg]
    simp only [Option.map_some']
    rw [fixOneState_search_failed _ _ _ _ _ _ hfail]

theorem demo_projectToBounds : projectToBounds demoSpace1 [-1] = [0] := by
  norm_num [projectToBounds, demoSpace1]

/-- On the one-axis demo space with the all-rejecting validity
predicate, the nearby search for the out-of-bounds state (-1) fails
after its single attempt, leaving the last sample in its working
state. -/
theorem demo_searchValidNearby_fails :
    searchValidNearby demoSpace1 demoNoneValid demoDraws [-1] [1/2] 1 =
      (false, [0]) := by
  have hb : satisfiesBounds demoSpace1 [-1] = false := by
    norm_num [satisfiesBounds, demoSpace1]
  have hsamp : sampleNear demoSpace1 (demoDraws 0) [0] [1/2] = [0] := by
    unfold sampleNear
    rw [sampleNearFrom]
    norm_num [demoSpace1, demoDraws]
    rw [if_neg (by decide : ¬(CompType.LINEAR = CompType.QUATERNION))]
    rw [sampleNearFrom]
    norm_num [demoSpace1]
  simp only [searchValidNearby, hb, demoNoneValid, svnLoop, hsamp,
    Bool.false_eq_true, if_false, demo_projectToBounds]

/-- C7 (counterexample).  On a single linear axis with bounds 0 to 10,
the out-of-bounds invalid start state (-1) is left at its original
value by a failed repair, not at its projection 0 into the bounds: the
claim that the caller's state ends up projected into bounds is
refuted. -/
theorem repair_failure_not_projected :
    (searchValidNearby demoSpace1 demoNoneValid demoDraws [-1] [1/2] 1).1
      = false ∧
    fixOneState demoSpace1 demoNoneValid demoDraws [1/2] 1 [-1] = [-1] ∧
    projectToBounds demoSpace1 [-1] = [0] ∧
    fixOneState demoSpace1 demoNoneValid demoDraws [1/2] 1 [-1] ≠
      projectToBounds demoSpace1 [-1] := by
  have hfail : (searchValidNearby demoSpace1 demoNoneValid demoDraws
      [-1] [1/2] 1).1 = false := by rw [demo_searchValidNearby_fails]
  have hfix : fixOneState demoSpace1 demoNoneValid demoDraws [1/2] 1 [-1]
      = [-1] :=
    fixOneState_search_failed _ _ _ _ _ _ hfail
  refine ⟨hfail, hfix, demo_projectToBounds, ?_⟩
  rw [hfix, demo_projectToBounds]
  norm_num

theorem list_getD_set_self {α : Type} (d : α) :
    ∀ (l : List α) (i : ℕ) (x : α), i < l.length →
      (l.set i x).getD i d = x := by
  intro l
  induction l with
  | nil => intro i x h; cases h
  | cons a t ih =>
    intro i x h
    cases i with
    | zero => rfl
    | succ n =>
      simp only [List.set_cons_succ, List.getD_cons_succ]
      exact ih n x (by simpa using h)

theorem list_getD_set_ne {α : Type} (d : α) :
    ∀ (l : List α) (i q : ℕ) (x : α), i ≠ q →
      (l.set i x).getD q d = l.getD q d := by
  intro l
  induction l with
  | nil => intro i q x _; rfl
  | cons a t ih =>
    intro i q x h
    cases i with
    | zero =>
      cases q with
      | zero => exact absurd rfl h
      | succ m => rfl
    | succ n =>
      cases q with
      | zero => rfl
      | succ m =>
        simp only [List.set_cons_succ, List.getD_cons_succ]
        exact ih n m x (by omega)

/-- The interior loop of getMotionStates returns the running count plus
the number of iterations it performs, which is the number of interior
indices left capped by the number of free slots. -/
theorem gmsLoop_fst (s1 : State) (step : List ℚ) (nd len : ℕ) :
    ∀ fuel j added arr, nd - j ≤ fuel →
      (gmsLoop s1 step nd len fuel j added arr).1 =
        added + min (nd - j) (len - added) := by
  intro fuel
  induction fuel with
  | zero =>
    intro j added arr h
    simp only [gmsLoop]
    omega
  | succ n ih =>
    intro j added arr h
    simp only [gmsLoop]
    by_cases hc : j < nd ∧ added < len
    · rw [if_pos hc]
      rw [ih (j + 1) (added + 1) _ (by omega)]
      omega
    · rw [if_neg hc]
      push_neg at hc
      simp only
      omega

/-- Content of the buffer produced by the interior loop of
getMotionStates when the slot cursor and the grid cursor agree: slots
from the starting index up to the number of performed iterations hold
the interior grid states, every other slot is untouched. -/
theorem gmsLoop_snd_getD (s1 : State) (step : List ℚ) (nd len : ℕ) :
    ∀ fuel j arr q, nd - j ≤ fuel → arr.length = len →
      (gmsLoop s1 step nd len fuel j j arr).2.getD q [] =
        (if j ≤ q ∧ q < j + min (nd - j) (len - j) then
          interpState s1 step (q : ℚ)
        else arr.getD q []) := by
  intro fuel
  induction fuel with
  | zero =>
    intro j arr q h hlen
    simp only [gmsLoop]
    rw [if_neg (by omega)]
  | succ n ih =>
    intro j arr q h hlen
    simp only [gmsLoop]
    by_cases hc : j < nd ∧ j < len
    · rw [if_pos hc]
      rw [ih (j + 1) _ q (by omega) (by simpa using hlen)]
      by_cases hq : q = j
      · subst hq
        rw [if_neg (by omega), if_pos (by omega)]
        exact list_getD_set_self [] arr q (interpState s1 step (q : ℚ))
          (by omega)
      · by_cases hqin : j + 1 ≤ q ∧
            q < (j + 1) + min (nd - (j + 1)) (len - (j + 1))
        · rw [if_pos hqin, if_pos (by omega)]
        · rw [if_neg hqin, if_neg (by omega)]
          exact list_getD_set_ne [] arr j q _ (fun hjq => hq hjq.symm)
    · rw [if_neg hc]
      push_neg at hc
      rw [if_neg (by omega)]

/-- C10.  Count returned by getMotionStates: the result equals
min(L, nd + 1) where L is the length of the output sequence after the
optional alloc resize and nd the factor-1 subdivision count; moreover,
when L is at most nd (possible only without alloc), every slot of the
output holds the copy of s1 followed by interior grid states, so the
final state s2 is never written into a fully filled short buffer. -/
theorem getMotionStates_count (piQ : ℚ) (space : Space) (s1 s2 : State)
    (buf : List State) (alloc : Bool) :
    (getMotionStates piQ space s1 s2 buf alloc).1 =
      min (if alloc then (findDifferenceStep piQ space s1 s2 1).1.toNat + 1
           else buf.length)
        ((findDifferenceStep piQ space s1 s2 1).1.toNat + 1) ∧
    ((if alloc then (findDifferenceStep piQ space s1 s2 1).1.toNat + 1
      else buf.length) ≤ (findDifferenceStep piQ space s1 s2 1).1.toNat →
      ∀ q : ℕ,
        q < (if alloc then (findDifferenceStep piQ space s1 s2 1).1.toNat + 1
             else buf.length) →
        (getMotionStates piQ space s1 s2 buf alloc).2.getD q [] =
          if q = 0 then s1
          else interpState s1 (findDifferenceStep piQ space s1 s2 1).2
            (q : ℚ)) := by
  have hnd1 : 1 ≤ (findDifferenceStep piQ space s1 s2 1).1.toNat := by
    have h := one_le_findND 1 space (diffVec piQ space s1 s2)
    rw [findDifferenceStep_fst]
    omega
  simp only [getMotionStates]
  set nd := (findDifferenceStep piQ space s1 s2 1).1.toNat with hnd
  set step := (findDifferenceStep piQ space s1 s2 1).2 with hstep
  set arr0 := if alloc = true then List.replicate (nd + 1) ([] : State)
    else buf with harr0
  have hlen0 : arr0.length = if alloc = true then nd + 1 else buf.length := by
    rw [harr0]; cases alloc <;> simp
  rw [← hlen0]
  by_cases hpos : 0 < arr0.length
  · simp only [if_pos hpos]
    have hcount := gmsLoop_fst s1 step nd arr0.length nd 1 1
      (arr0.set 0 s1) (by omega)
    constructor
    · by_cases hfin : (gmsLoop s1 step nd arr0.length nd 1 1
          (arr0.set 0 s1)).1 < arr0.length
      · rw [if_pos hfin]
        rw [hcount] at hfin
        dsimp only
        rw [hcount]
        omega
      · rw [if_neg hfin]
        rw [hcount] at hfin
        rw [hcount]
        omega
    · intro hsmall q hq
      have hfin : ¬ (gmsLoop s1 step nd arr0.length nd 1 1
          (arr0.set 0 s1)).1 < arr0.length := by
        rw [hcount]; omega
      rw [if_neg hfin]
      have hcontent := gmsLoop_snd_getD s1 step nd arr0.length nd 1
        (arr0.set 0 s1) q (by omega) (by simp)
      rw [hcontent]
      by_cases hq0 : q = 0
      · subst hq0
        rw [if_neg (by omega), if_pos rfl]
        exact list_getD_set_self [] arr0 0 s1 hpos
      · rw [if_pos (by omega), if_neg hq0]
  · simp only [if_neg hpos]
    have hcount := gmsLoop_fst s1 step nd arr0.length nd 1 0 arr0 (by omega)
    have hfin : ¬ (gmsLoop s1 step nd arr0.length nd 1 0 arr0).1 <
        arr0.length := by
      rw [hcount]; omega
    rw [if_neg hfin]
    constructor
    · rw [hcount]; omega
    · intro _ q hq
      exact absurd hq (by omega)

theorem gmsLoop_snd_length (s1 : State) (step : List ℚ) (nd len : ℕ) :
    ∀ fuel j added arr, (gmsLoop s1 step nd len fuel j added arr).2.length =
      arr.length := by
  intro fuel
  induction fuel with
  | zero => intro j added arr; rfl
  | succ n ih =>
    intro j added arr
    simp only [gmsLoop]
    by_cases hc : j < nd ∧ added < len
    · rw [if_pos hc, ih]
      simp
    · rw [if_neg hc]

theorem getMotionStates_alloc_spec (piQ : ℚ) (space : Space) (s1 s2 : State)
    (buf : List State) :
    (getMotionStates piQ space s1 s2 buf true).1 =
      (findDifferenceStep piQ space s1 s2 1).1.toNat + 1 ∧
    (getMotionStates piQ space s1 s2 buf true).2.length =
      (findDifferenceStep piQ space s1 s2 1).1.toNat + 1 ∧
    ∀ q : ℕ, q ≤ (findDifferenceStep piQ space s1 s2 1).1.toNat →
      (getMotionStates piQ space s1 s2 buf true).2.getD q [] =
        (if q = 0 then s1
        else if q < (findDifferenceStep piQ space s1 s2 1).1.toNat then
          interpState s1 (findDifferenceStep piQ space s1 s2 1).2 (q : ℚ)
        else s2) := by
  have hnd1 : 1 ≤ (findDifferenceStep piQ space s1 s2 1).1.toNat := by
    have h := one_le_findND 1 space (diffVec piQ space s1 s2)
    rw [findDifferenceStep_fst]
    omega
  simp only [getMotionStates, eq_self_iff_true, if_true]
  set nd := (findDifferenceStep piQ space s1 s2 1).1.toNat with hnd
  set step := (findDifferenceStep piQ space s1 s2 1).2 with hstep
  set arr0 := List.replicate (nd + 1) ([] : State) with harr0
  have hlen0 : arr0.length = nd + 1 := by rw [harr0]; simp
  have hpos : 0 < arr0.length := by omega
  simp only [if_pos hpos]
  have hcount := gmsLoop_fst s1 step nd arr0.length nd 1 1
    (arr0.set 0 s1) (by omega)
  have hr1 : (gmsLoop s1 step nd arr0.length nd 1 1 (arr0.set 0 s1)).1 =
      nd := by
    rw [hcount]
    omega
  have hfin : (gmsLoop s1 step nd arr0.length nd 1 1 (arr0.set 0 s1)).1 <
      arr0.length := by omega
  rw [if_pos hfin]
  have hrlen : (gmsLoop s1 step nd arr0.length nd 1 1
      (arr0.set 0 s1)).2.length = arr0.length := by
    rw [gmsLoop_snd_length]
    simp
  refine ⟨by dsimp only; omega, by dsimp only; simp [hrlen]; omega, ?_⟩
  intro q hq
  dsimp only
  rw [hr1]
  by_cases hqnd : q = nd
  · subst hqnd
    rw [list_getD_set_self [] _ _ _ (by omega)]
    rw [if_neg (by omega), if_neg (by omega)]
  · rw [list_getD_set_ne [] _ _ _ _ (fun h => hqnd h.symm)]
    have hcontent := gmsLoop_snd_getD s1 step nd arr0.length nd 1
      (arr0.set 0 s1) q (by omega) (by simp)
    rw [hcontent]
    by_cases hq0 : q = 0
    · subst hq0
      rw [if_neg (by omega), if_pos rfl]
      exact list_getD_set_self [] arr0 0 s1 hpos
    · rw [if_pos (by omega), if_neg hq0, if_pos (by omega)]

/-- Factor-1 difference step of the free-corridor scenario: on the
two-axis demo space from (0,0) to (10,0) the code yields nd = 11 (one
more than the ten resolution lengths, since 1 + floor(10 / 1) = 11) and
step (10/11, 0). -/
theorem demo_free_corridor_fd :
    findDifferenceStep (157/50) demoSpace2 [0, 0] [10, 0] 1 =
      (11, [10/11, 0]) := by
  norm_num [findDifferenceStep, findND, diffVec, trunc, demoSpace2,
    eq_false (by decide : ¬ (CompType.LINEAR = CompType.WRAPPING_ANGLE)),
    sup_eq_max, max_def]

/-- C6 (counterexample).  In the free-corridor scenario the allocating
motion_states call returns 12 states, not the 11 the claim states: the
subdivision count at factor 1 is nd = 1 + floor(10 / 1) = 11, and the
sequence is resized to nd + 1 = 12. -/
theorem free_corridor_count_counterexample :
    (getMotionStates (157/50) demoSpace2 [0, 0] [10, 0] [] true).1 ≠ 11 := by
  have h := (getMotionStates_alloc_spec (157/50) demoSpace2
    [0, 0] [10, 0] []).1
  rw [demo_free_corridor_fd] at h
  rw [h]
  decide

/-- C6 (amended).  Free-corridor state count: motion_states with alloc
returns nd + 1 = 12 states on the edge from (0,0) to (10,0) of the
two-axis demo space; the sequence is resized to nd + 1, fully
populated, begins with s1 and ends with s2, and nd = 11. -/
theorem free_corridor_motion_states :
    (getMotionStates (157/50) demoSpace2 [0, 0] [10, 0] [] true).1 = 12 ∧
    (getMotionStates (157/50) demoSpace2 [0, 0] [10, 0] [] true).2.length
      = 12 ∧
    (getMotionStates (157/50) demoSpace2 [0, 0] [10, 0] [] true).2.getD 0 []
      = [0, 0] ∧
    (getMotionStates (157/50) demoSpace2 [0, 0] [10, 0] [] true).2.getD 11 []
      = [10, 0] ∧
    (findDifferenceStep (157/50) demoSpace2 [0, 0] [10, 0] 1).1 = 11 := by
  obtain ⟨h1, h2, h3⟩ := getMotionStates_alloc_spec (157/50) demoSpace2
    [0, 0] [10, 0] []
  rw [demo_free_corridor_fd] at h1 h2 h3
  refine ⟨?_, ?_, ?_, ?_, by rw [demo_free_corridor_fd]⟩
  · rw [h1]; decide
  · rw [h2]; decide
  · have h0 := h3 0 (by decide)
    rw [h0, if_pos rfl]
  · have h11 := h3 11 (by decide)
    rw [h11]
    rw [if_neg (by decide), if_neg (by decide)]

theorem queueMeasure_append (a b : List (ℕ × ℕ)) :
    queueMeasure (a ++ b) = queueMeasure a + queueMeasure b := by
  simp [queueMeasure]

theorem queueMeasure_cons (p : ℕ × ℕ) (q : List (ℕ × ℕ)) :
    queueMeasure (p :: q) = (2 * (p.2 + 1 - p.1) + 1) + queueMeasure q := by
  simp [queueMeasure]

theorem bisectLoop_fuel_agree (valid : State → Bool) (s1 : State)
    (step : List ℚ) :
    ∀ f g q, queueMeasure q < f → queueMeasure q < g →
      bisectLoop valid s1 step f q = bisectLoop valid s1 step g q := by
  intro f
  induction f with
  | zero => intro g q hf _; omega
  | succ n ih =>
    intro g q hf hg
    cases q with
    | nil =>
      cases g with
      | zero => omega
      | succ m => rfl
    | cons a rest =>
      obtain ⟨lo, hi⟩ := a
      cases g with
      | zero =>
        rw [queueMeasure_cons] at hg
        omega
      | succ m =>
        simp only [bisectLoop]
        by_cases hv : valid (interpState s1 step (((lo + hi) / 2 : ℕ) : ℚ))
            = true
        · rw [if_pos hv, if_pos hv]
          have hmeas : queueMeasure (rest ++
              (if lo < (lo + hi) / 2 then [(lo, (lo + hi) / 2 - 1)] else []) ++
              (if (lo + hi) / 2 < hi then [((lo + hi) / 2 + 1, hi)] else []))
              < queueMeasure ((lo, hi) :: rest) := by
            rw [queueMeasure_append, queueMeasure_append, queueMeasure_cons]
            by_cases h1 : lo < (lo + hi) / 2 <;>
              by_cases h2 : (lo + hi) / 2 < hi <;>
              simp [h1, h2, queueMeasure] <;> omega
          rw [queueMeasure_cons] at hf hg
          exact ih m _ (by rw [queueMeasure_cons] at hmeas; omega)
            (by rw [queueMeasure_cons] at hmeas; omega)
        · rw [if_neg hv, if_neg hv]

theorem demo_fd5 :
    findDifferenceStep (157/50) demoSpace1 [0] [4] 1 = (5, [4/5]) := by
  norm_num [findDifferenceStep, findND, diffVec, trunc, demoSpace1,
    eq_false (by decide : ¬ (CompType.LINEAR = CompType.WRAPPING_ANGLE)),
    sup_eq_max, max_def]

/-- Witness for checkMotionSubdivision_sound: a concrete free edge on
the one-axis demo space. -/
theorem checkMotionSubdivision_sound_witness :
    demoAllValid [2] = true ∧
    ∀ k : ℕ, 1 ≤ k →
      (k : ℤ) ≤ (findDifferenceStep (157/50) demoSpace1 [0] [2] 1).1 - 1 →
      demoAllValid
        (interpState [0] (findDifferenceStep (157/50) demoSpace1 [0] [2] 1).2
          (k : ℚ)) = true :=
  checkMotionSubdivision_sound (157/50) demoSpace1 demoAllValid [0] [2] rfl
    (by norm_num [checkMotionSubdivision, findDifferenceStep, findND, diffVec,
      trunc, demoSpace1, demoAllValid, bisectLoop, interpState,
      eq_false (by decide : ¬ (CompType.LINEAR = CompType.WRAPPING_ANGLE)),
      sup_eq_max, max_def])

/-- Witness for checkMotionIncremental_witness_correct: the banded
obstacle scenario on the one-axis demo space. -/
theorem checkMotionIncremental_witness_correct_witness :
    ∃ j : ℕ, 1 ≤ j ∧
      (j : ℤ) < (findDifferenceStep (157/50) demoSpace1 [0] [4] 1).1 ∧
      (∀ k : ℕ, k < j →
        demoBandValid
          (interpState [0] (findDifferenceStep (157/50) demoSpace1 [0] [4] 1).2
            (k : ℚ)) = true) ∧
      demoBandValid
        (interpState [0] (findDifferenceStep (157/50) demoSpace1 [0] [4] 1).2
          (j : ℚ)) = false ∧
      [8/5] = interpState [0] (findDifferenceStep (157/50) demoSpace1 [0] [4] 1).2
        ((j : ℚ) - 1) ∧
      (2/5 : ℚ) = ((j : ℚ) - 1) /
        (((findDifferenceStep (157/50) demoSpace1 [0] [4] 1).1 : ℤ) : ℚ) :=
  checkMotionIncremental_witness_correct (157/50) demoSpace1 demoBandValid
    [0] [4] rfl rfl (by norm_num [demoBandValid]) [8/5] (2/5)
    [[4/5], [8/5], [12/5]]
    (by norm_num [checkMotionIncremental, incrLoop, interpState,
      findDifferenceStep, findND, diffVec, trunc, demoSpace1, demoBandValid,
      show Int.toNat 5 = 5 from rfl,
      eq_false (by decide : ¬ (CompType.LINEAR = CompType.WRAPPING_ANGLE)),
      sup_eq_max, max_def])


/-- Witness for findDifferenceStep_spec: a wrapping plus a linear axis
at factor 1/2. -/
theorem findDifferenceStep_spec_witness :
    (findDifferenceStep (157/50) demoSpaceW [3, 0] [-3, 1] (1/2)).1 =
      ndSpec (1/2) demoSpaceW (diffVec (157/50) demoSpaceW [3, 0] [-3, 1]) ∧
    (findDifferenceStep (157/50) demoSpaceW [3, 0] [-3, 1] (1/2)).2 =
      (diffVec (157/50) demoSpaceW [3, 0] [-3, 1]).map
        (fun d => d /
          ((ndSpec (1/2) demoSpaceW
            (diffVec (157/50) demoSpaceW [3, 0] [-3, 1]) : ℤ) : ℚ)) ∧
    (diffVec (157/50) demoSpaceW [3, 0] [-3, 1]).getD 0 0 =
      (if demoSpaceW[0].type = CompType.WRAPPING_ANGLE then
        shortestAngularDistance (157/50) (([3, 0] : State).getD 0 0)
          (([-3, 1] : State).getD 0 0)
      else ([-3, 1] : State).getD 0 0 - ([3, 0] : State).getD 0 0) := by
  have h := findDifferenceStep_spec (157/50) (1/2) demoSpaceW [3, 0] [-3, 1]
    (by norm_num) (by norm_num)
    (by norm_num [demoSpaceW, List.forall_mem_cons])
  exact ⟨h.1, h.2.1, h.2.2 0 (by decide) (by decide) (by decide)⟩

/-- Witness for step_le_resolution: first axis of the free-corridor
edge. -/
theorem step_le_resolution_witness :
    |(findDifferenceStep (157/50) demoSpace2 [0, 0] [10, 0] 1).2.getD 0 0| ≤
      demoSpace2[0].resolution :=
  step_le_resolution (157/50) demoSpace2 [0, 0] [10, 0] 0 (by decide)
    (by decide) (by decide) (by norm_num [demoSpace2])

/-- Witness for checkPath_spec: a two-state path on the one-axis demo
space. -/
theorem checkPath_spec_witness :
    checkPath (157/50) demoSpace1 demoAllValid none = false ∧
    checkPath (157/50) demoSpace1 demoAllValid (some []) = true ∧
    (checkPath (157/50) demoSpace1 demoAllValid (some [[0], [1]]) = true ↔
      (demoAllValid (([[0], [1]] : List State).getD 0 []) = true ∧
        List.Chain'
          (fun a b =>
            checkMotionSubdivision (157/50) demoSpace1 demoAllValid a b = true)
          [[0], [1]])) :=
  ⟨(checkPath_spec (157/50) demoSpace1 demoAllValid).1,
   (checkPath_spec (157/50) demoSpace1 demoAllValid).2.1,
   (checkPath_spec (157/50) demoSpace1 demoAllValid).2.2 [[0], [1]]
     (by simp)⟩

/-- Witness for fixInvalidInputStates_frame: the failed repair of the
start state (-1) leaves it unchanged. -/
theorem fixInvalidInputStates_frame_witness :
    ((fixInvalidInputStates demoSpace1 demoNoneValid (fun _ => demoDraws)
      demoDraws [1/2] [1/2] 1 [[-1]] none).1).getD 0 [] = [-1] :=
  (fixInvalidInputStates_frame demoSpace1 demoNoneValid (fun _ => demoDraws)
    demoDraws [1/2] [1/2] 1 [[-1]] none).1 0 (by decide)
    (by show (searchValidNearby demoSpace1 demoNoneValid demoDraws
          [-1] [1/2] 1).1 = false
        rw [demo_searchValidNearby_fails])

/-- Witness for checkMotionIncremental_invalid_endpoint: all states
rejected, endpoint invalid. -/
theorem checkMotionIncremental_invalid_endpoint_witness :
    checkMotionIncremental (157/50) demoSpace1 demoNoneValid [0] [1] =
      (false, none, none, []) :=
  checkMotionIncremental_invalid_endpoint (157/50) demoSpace1 demoNoneValid
    [0] [1] rfl

/-- Witness for endpoint_closure: the wrapping axis of the demo space
with a wrapping and a linear axis. -/
theorem endpoint_closure_witness :
    (demoSpaceW[0].type = CompType.LINEAR →
      ([3, 0] : State)[0] +
        (((findDifferenceStep (157/50) demoSpaceW [3, 0] [-3, 1] 1).1 : ℤ) : ℚ)
          * (findDifferenceStep (157/50) demoSpaceW [3, 0] [-3, 1] 1).2.getD 0 0
        = ([-3, 1] : State)[0]) ∧
    (demoSpaceW[0].type = CompType.WRAPPING_ANGLE →
      ∃ m : ℤ, ([3, 0] : State)[0] +
        (((findDifferenceStep (157/50) demoSpaceW [3, 0] [-3, 1] 1).1 : ℤ) : ℚ)
          * (findDifferenceStep (157/50) demoSpaceW [3, 0] [-3, 1] 1).2.getD 0 0
        - ([-3, 1] : State)[0] = 2 * (157/50) * m) :=
  endpoint_closure (157/50) 1 demoSpaceW [3, 0] [-3, 1] 0 (by decide)
    (by decide) (by decide)

/-- Witness for getMotionStates_count: a three-slot caller buffer on a
five-subdivision edge (no alloc), fully filled without the final
state. -/
theorem getMotionStates_count_witness :
    (getMotionStates (157/50) demoSpace1 [0] [4] [[55], [66], [77]] false).1
      = 3 ∧
    (getMotionStates (157/50) demoSpace1 [0] [4] [[55], [66], [77]] false).2.getD
      1 [] = interpState [0] (findDifferenceStep (157/50) demoSpace1 [0] [4] 1).2
        (1 : ℚ) := by
  have h := getMotionStates_count (157/50) demoSpace1 [0] [4]
    [[55], [66], [77]] false
  constructor
  · rw [h.1, demo_fd5]
    decide
  · have h2 := h.2 (by rw [demo_fd5]; decide) 1 (by decide)
    rw [h2, if_neg (by decide)]
    norm_num

end OmplKin
